import Mathlib

/-
Verification of the diff/source scanning core of check_ifdef.py
(class IfDefChecker).  Python string operations are embedded as
executable functions over the character list of a string; stateful
scans become explicit folds or structural recursions; Python
IndexError is modelled with Except.
-/

/-- Python IndexError, the only exception the scanning core can raise. -/
inductive PyErr where
  | indexError
deriving DecidableEq, Repr

deriving instance DecidableEq for Except

/-- Characters stripped by Python str.strip() / split() with no argument. -/
def pyWsChar (c : Char) : Bool :=
  c = ' ' || c = '\t' || c = '\n' || c = '\r' || c = '\x0b' || c = '\x0c'

/-- Python s.lstrip(). -/
def pyLStrip (s : String) : String :=
  ⟨s.data.dropWhile pyWsChar⟩

/-- Python s.rstrip(). -/
def pyRStrip (s : String) : String :=
  ⟨(s.data.reverse.dropWhile pyWsChar).reverse⟩

/-- Python s.strip(). -/
def pyStrip (s : String) : String :=
  pyRStrip (pyLStrip s)

/-- Python s.rstrip(chars): remove every trailing character drawn from cs. -/
def pyRStripSet (cs : List Char) (s : String) : String :=
  ⟨(s.data.reverse.dropWhile (fun c => cs.contains c)).reverse⟩

/-- Python s.startswith(p). -/
def pyStartsWith (s p : String) : Bool :=
  p.data.isPrefixOf s.data

/-- Python s.endswith(p). -/
def pyEndsWith (s p : String) : Bool :=
  p.data.isSuffixOf s.data

/-- Worker for whitespace split: cur holds the current word reversed. -/
def splitWsAux : List Char → List Char → List String
  | [], cur => if cur.isEmpty then [] else [⟨cur.reverse⟩]
  | c :: rest, cur =>
    if pyWsChar c then
      if cur.isEmpty then splitWsAux rest []
      else ⟨cur.reverse⟩ :: splitWsAux rest []
    else splitWsAux rest (c :: cur)

/-- Python s.split() with no argument: split on whitespace runs, no empties. -/
def pySplit (s : String) : List String :=
  splitWsAux s.data []

/-- Worker for single-character separator split (Python s.split(sep)). -/
def splitChAux (sep : Char) : List Char → List Char → List String
  | [], cur => [⟨cur.reverse⟩]
  | c :: rest, cur =>
    if c = sep then ⟨cur.reverse⟩ :: splitChAux sep rest []
    else splitChAux sep rest (c :: cur)

/-- Python s.split(sep) for a one-character separator. -/
def pySplitCh (sep : Char) (s : String) : List String :=
  splitChAux sep s.data []

/-- Python text.split("\n"). -/
def pyLines (s : String) : List String :=
  pySplitCh '\n' s

/-- Leftmost occurrence of pat in l, as a character index offset by i. -/
def subFindAux (pat : List Char) : List Char → Nat → Option Nat
  | [], i => if pat.isEmpty then some i else none
  | c :: rest, i =>
    if pat.isPrefixOf (c :: rest) then some i else subFindAux pat rest (i + 1)

/-- Python s.find(pat): index of first occurrence (None models -1). -/
def pyFind (s pat : String) : Option Nat :=
  subFindAux pat.data s.data 0

/-- Python (pat in s). -/
def pyContains (s pat : String) : Bool :=
  (pyFind s pat).isSome

/-- Python s[:n] (character slicing). -/
def strTake (s : String) (n : Nat) : String :=
  ⟨s.data.take n⟩

/-- Python s[n:] (character slicing). -/
def strDrop (s : String) (n : Nat) : String :=
  ⟨s.data.drop n⟩

/-- Python s.lower() (ASCII case fold, as used on extensions). -/
def pyLower (s : String) : String :=
  ⟨s.data.map Char.toLower⟩

/-- Rightmost index of character c in l (Python str.rfind for one char). -/
def rfindChAux (c : Char) : List Char → Nat → Option Nat → Option Nat
  | [], _, best => best
  | x :: rest, i, best =>
    rfindChAux c rest (i + 1) (if x = c then some i else best)

/-- pathlib PurePath.name of a path string: final component, with empty
and "." components dropped the way pathlib normalizes them. -/
def pathName (s : String) : String :=
  (((pySplitCh '/' s).filter (fun p => p ≠ "" && p ≠ ".")).getLast?).getD ""

/-- pathlib PurePath.suffix: extension of the final component; empty
unless the final dot is neither first nor last in the name. -/
def pathSuffix (s : String) : String :=
  let nm := pathName s
  match rfindChAux '.' nm.data 0 none with
  | some i => if 0 < i ∧ i < nm.data.length - 1 then ⟨nm.data.drop i⟩ else ""
  | none => ""

/-- IfDefChecker.code_extensions. -/
def code_extensions : List String :=
  [".c", ".h", ".f", ".f90", ".f95"]

/-
IfDefChecker.wrapped_files: the while loop runs at indices i < len(diff)-2
and advances i by 1, or by 2 after a "+++ "/".F90" header line;  so each
step sees at least the current line and the two after it.  The loop body
is embedded as a structural recursion over the remaining lines, guarded by
the three-lines-remaining pattern; acc is self._wrapped.
-/
def wrappedAux (acc : List String) : List String → Except PyErr (List String)
  | l0 :: l1 :: l2 :: rest =>
    let line := pyStrip l0
    if pyStartsWith line "+++ " && pyContains line ".F90" then
      let hunks := pySplit l1
      match hunks[2]? with
      | none => .error .indexError
      | some h2 =>
        if pyStartsWith h2 "+1," && pyStartsWith l2 "+#if" then
          match (pySplit line)[1]? with
          | some name => wrappedAux (acc ++ [name]) (l2 :: rest)
          | none => .error .indexError
        else wrappedAux acc (l2 :: rest)
    else wrappedAux acc (l1 :: l2 :: rest)
  | _ => .ok acc

/-- IfDefChecker.wrapped_files: stores the wrapped list, returns its length. -/
def wrapped_files (diff : List String) : Except PyErr (List String × Nat) :=
  match wrappedAux [] diff with
  | .ok ws => .ok (ws, ws.length)
  | .error e => .error e

/-- The header test of wrapped_files on a raw diff line. -/
def wfMatch (l : String) : Bool :=
  pyStartsWith (pyStrip l) "+++ " && pyContains (pyStrip l) ".F90"

/-
IfDefChecker.get_added_files: a generator folding over the diff lines
with state (name, code_file); name None models no pending file.  Yields
are collected in order; a raised IndexError is the error case.
-/
def gafAux (name : Option String) (code_file : Bool) :
    List String → Except PyErr (List String)
  | [] => .ok []
  | line :: rest =>
    if pyStartsWith line "+++" then
      match (pySplit line)[1]? with
      | none => .error .indexError
      | some nm =>
        gafAux (some nm) (code_extensions.contains (pyLower (pathSuffix nm))) rest
    else
      match name with
      | some nm =>
        if pyStartsWith line "+" && code_file then
          Except.map (fun out => nm :: out) (gafAux none false rest)
        else gafAux (some nm) code_file rest
      | none => gafAux none code_file rest

/-- IfDefChecker.get_added_files, started from the initial generator state. -/
def get_added_files (diff : List String) : Except PyErr (List String) :=
  gafAux none false diff

/-- The loop state of IfDefChecker.clean_text: the two flags plus the
accumulated result string. -/
structure CleanState where
  continuation : Bool
  block_comment : Bool
  result : String
deriving DecidableEq, Repr

/-
One iteration of the clean_text loop.  continuation is reset to False at
the bottom of the loop body, which the continue statement in the ongoing
block-comment branch skips, so that branch keeps the incoming value.
-/
def cleanLine (st : CleanState) (line0 : String) : CleanState :=
  let cont1 := if pyEndsWith line0 "\\" then true else st.continuation
  let line :=
    if pyEndsWith line0 "\\" then
      pyRStrip (pyRStripSet ['\\'] line0) ++ " "
    else if line0 ≠ "" then
      (if st.continuation then pyLStrip line0 else line0) ++ "\n"
    else
      line0
  match pyFind line "/*" with
  | some start =>
    match pyFind line "*/" with
    | some e =>
      if 0 < e then
        { continuation := false, block_comment := false,
          result := st.result ++
            (pyRStrip (strTake line start) ++ " " ++ pyLStrip (strDrop line (e + 2))) }
      else
        { continuation := false, block_comment := true,
          result := st.result ++ (pyRStrip (strTake line start) ++ "\n") }
    | none =>
      { continuation := false, block_comment := true,
        result := st.result ++ (pyRStrip (strTake line start) ++ "\n") }
  | none =>
    if st.block_comment then
      match pyFind line "*/" with
      | some e =>
        if 0 < e then
          { continuation := false, block_comment := false,
            result := st.result ++ pyLStrip (strDrop line (e + 2)) }
        else
          { continuation := cont1, block_comment := true, result := st.result }
      | none =>
        { continuation := cont1, block_comment := true, result := st.result }
    else
      { continuation := false, block_comment := st.block_comment,
        result := st.result ++ line }

/-- IfDefChecker.clean_text. -/
def clean_text (text : String) : String :=
  pyRStrip ((pyLines text).foldl cleanLine ⟨false, false, ""⟩).result

/-- The two-state token walker of IfDefChecker.defined_tokens; the Bool
is the definition flag (seen "defined", parenthesis still pending). -/
def definedTokensAux (definition : Bool) : List String → List String
  | [] => []
  | token :: rest =>
    if pyStartsWith token "defined" then
      match pyFind token "(" with
      | some start =>
        if 0 < start then
          pyRStripSet [')'] (strDrop token (start + 1)) :: definedTokensAux false rest
        else definedTokensAux true rest
      | none => definedTokensAux true rest
    else if definition && pyStartsWith token "(" then
      pyRStripSet [')'] (strDrop token 1) :: definedTokensAux false rest
    else definedTokensAux definition rest

/-- IfDefChecker.defined_tokens on one (already stripped) line. -/
def defined_tokens (line : String) : List String :=
  definedTokensAux false (pySplit line)

/-- One line of the IfDefChecker.find_ifdefs loop.  The elif condition
keeps the Python operator precedence:
startswith "#if" or (startswith "#elif" and "defined" in line). -/
def findIfdefsLine (line0 : String) : Except PyErr (List String) :=
  let line := pyStrip line0
  if pyStartsWith line "#ifdef" || pyStartsWith line "#ifndef" then
    match (pySplit line)[1]? with
    | some t => .ok [t]
    | none => .error .indexError
  else if pyStartsWith line "#if" ||
      (pyStartsWith line "#elif" && pyContains line "defined") then
    .ok (defined_tokens line)
  else .ok []

/-- Concatenate the per-line yields, stopping at a raised IndexError. -/
def findIfdefsLines : List String → Except PyErr (List String)
  | [] => .ok []
  | l :: rest =>
    match findIfdefsLine l with
    | .error e => .error e
    | .ok ms =>
      match findIfdefsLines rest with
      | .error e => .error e
      | .ok more => .ok (ms ++ more)

/-- IfDefChecker.find_ifdefs over a whole text. -/
def find_ifdefs (text : String) : Except PyErr (List String) :=
  findIfdefsLines (pyLines text)

/-- The per-file set of used retired macros built by inspect_file's loop
(Python: retired = set(); add each yielded macro that is in self._retired). -/
def matchedSet (retired macros : List String) : Finset String :=
  macros.foldl (fun s m => if m ∈ retired then insert m s else s) ∅

/-- IfDefChecker.inspect_file on the text of the file: returns the clean
boolean len(retired)==0 together with the updated self._additions. -/
def inspect_file (retired : List String) (additions : Finset String)
    (text : String) : Except PyErr (Bool × Finset String) :=
  match find_ifdefs (clean_text text) with
  | .error e => .error e
  | .ok macros =>
    let found := matchedSet retired macros
    .ok (decide (found.card = 0), additions ∪ found)

/-- Well-formedness of a diff for wrapped_files: every scannable header
line that passes the "+++ "/".F90" test is followed by a line with at
least three whitespace tokens and itself has a second token. -/
def wfSafe (diff : List String) : Prop :=
  ∀ i < diff.length, i + 2 < diff.length →
    wfMatch (diff.getD i "") = true →
    3 ≤ (pySplit (diff.getD (i + 1) "")).length ∧
    ((pySplit (pyStrip (diff.getD i "")))[1]?).isSome = true

instance (diff : List String) : Decidable (wfSafe diff) := by
  unfold wfSafe; infer_instance

/-- Well-formedness of a diff for get_added_files: every "+++" line has
a second whitespace token. -/
def gafSafe (diff : List String) : Prop :=
  ∀ l ∈ diff, pyStartsWith l "+++" = true → ((pySplit l)[1]?).isSome = true

instance (diff : List String) : Decidable (gafSafe diff) := by
  unfold gafSafe; infer_instance

/-- The nonempty lines of a text, each with a trailing newline, in
order: what clean_text produces (before the final rstrip) on text with
no comments and no continuations. -/
def plainJoin : List String → String
  | [] => ""
  | l :: ls => (if l = "" then "" else l ++ "\n") ++ plainJoin ls

example : pyStrip "  +++ a.F90  " = "+++ a.F90" := by decide
example : pySplit " @@ -1,2 +1,4 @@ " = ["@@", "-1,2", "+1,4", "@@"] := by decide
example : pyLines "a\n\nb" = ["a", "", "b"] := by decide
example : pyFind "a /*" "/*" = some 2 := by decide
example : pyFind "*/ keep" "*/" = some 0 := by decide
example : pathSuffix "b/test.F90" = ".F90" := by decide
example : pathSuffix "readme.txt" = ".txt" := by decide
example : pyLower ".F90" = ".f90" := by decide
example : pyRStripSet [')'] "X))" = "X" := by decide
example : pyEndsWith "ab \\" "\\" = true := by decide
example :
    wrapped_files ["+++ b/test.F90", "@@ -1,2 +1,4 @@", "+#ifdef FOO"] =
      .ok (["b/test.F90"], 1) := by decide
example :
    wrapped_files ["+++ test.F90", "@@ -1,2 +1,4 @@", "+#ifdef FOO"] =
      .ok (["test.F90"], 1) := by decide
example :
    wrapped_files ["+++ a.F90 x", "+++ b.F90 y", "@@ -1,2 +1,4 @@", "+#ifdef FOO"] =
      .ok ([], 0) := by decide
example :
    wrapped_files ["+++ a.F90", "@@", "x", "y"] = .error .indexError := by decide
example :
    wrapped_files ["+++ a.F90.txt", "@@ -1,2 +1,4 @@", "+#ifdef FOO"] =
      .ok (["a.F90.txt"], 1) := by decide
example : get_added_files ["+++"] = .error .indexError := by decide
example : get_added_files ["+++ readme.txt", "+some text"] = .ok [] := by decide
example :
    get_added_files ["+++ a.c", "@@ -1,1 +1,2 @@", "+x", "@@ -5,1 +5,2 @@", "+y"] =
      .ok ["a.c"] := by decide
example : clean_text "a\n\nb" = "a\nb" := by decide
example : clean_text "a /*\nbody\n*/ keep\nx" = "a" := by decide
example : clean_text "a /*\nbody\nc */ keep\nx" = "a\nkeep\nx" := by decide
example : clean_text "int a; /* c */ int b;" = "int a; int b;" := by decide
example : find_ifdefs "#ifdef FOO" = .ok ["FOO"] := by decide
example : find_ifdefs "#ifndef FOO" = .ok ["FOO"] := by decide
example : find_ifdefs "#if defined(X)" = .ok ["X"] := by decide
example : find_ifdefs "#if defined (X)" = .ok ["X"] := by decide
example : find_ifdefs "#if defined(X) && defined(Y)" = .ok ["X", "Y"] := by decide
example : find_ifdefs "#elif defined(X)" = .ok ["X"] := by decide
example : find_ifdefs "#elif FOO" = .ok [] := by decide
example :
    inspect_file ["ABC"] ∅ "#ifdef ABC\n#ifdef ABC\n#ifdef CDE" =
      .ok (false, {"ABC"}) := by decide
example :
    find_ifdefs (clean_text "#ifdef ABC\n#ifdef ABC\n#ifdef CDE") =
      .ok ["ABC", "ABC", "CDE"] := by decide

/-- C7: #ifdef FOO and #ifndef FOO each yield exactly FOO, and on an
#if-prefixed line defined(X), defined (X) and defined(X) && defined(Y)
yield X, X, and X then Y in left-to-right order. -/
theorem directive_scanner_examples :
    find_ifdefs "#ifdef FOO" = .ok ["FOO"] ∧
    find_ifdefs "#ifndef FOO" = .ok ["FOO"] ∧
    find_ifdefs "#if defined(X)" = .ok ["X"] ∧
    find_ifdefs "#if defined (X)" = .ok ["X"] ∧
    find_ifdefs "#if defined(X) && defined(Y)" = .ok ["X", "Y"] := by
  decide

/-- C3 counterexample: the line "#elif defined(X)" does not start with
"#if", yet the scanner routes it into defined-token extraction and yields
X, contrary to the claim that it is never routed. -/
theorem find_ifdefs_elif_counterexample :
    pyStartsWith (pyStrip "#elif defined(X)") "#if" = false ∧
    find_ifdefs "#elif defined(X)" = .ok ["X"] := by
  decide

/-- C2 counterexample: in this diff the line "+++ b.F90 y" starts with
"+++ ", contains ".F90", and is followed by a hunk header whose third
token "+1,4" starts with "+1," and then by "+#ifdef FOO"; the claim says
it must be recorded with count 1, but the scanner, after inspecting the
preceding "+++ a.F90 x" header, skips over it and records nothing. -/
theorem wrapped_files_claim_counterexample :
    wfMatch "+++ b.F90 y" = true ∧
    (pySplit "@@ -1,2 +1,4 @@")[2]? = some "+1,4" ∧
    pyStartsWith "+1,4" "+1," = true ∧
    pyStartsWith "+#ifdef FOO" "+#if" = true ∧
    wrapped_files ["+++ a.F90 x", "+++ b.F90 y", "@@ -1,2 +1,4 @@", "+#ifdef FOO"] =
      .ok ([], 0) := by
  decide

/-- C4 counterexample: the file name a.F90.txt does not end in ".F90",
yet wrapped_files records it, because eligibility is the substring test
".F90" in the header line, not a suffix test. -/
theorem wrapped_files_suffix_counterexample :
    pyEndsWith "a.F90.txt" ".F90" = false ∧
    wrapped_files ["+++ a.F90.txt", "@@ -1,2 +1,4 @@", "+#ifdef FOO"] =
      .ok (["a.F90.txt"], 1) := by
  decide

/-- C5 counterexample: a diff in which the same file has two hunks that
each insert a line yields the path only once, not once per qualifying
hunk as the claim asserts. -/
theorem get_added_files_rehunk_counterexample :
    get_added_files ["+++ a.c", "@@ -1,1 +1,2 @@", "+x", "@@ -5,1 +5,2 @@", "+y"] =
      .ok ["a.c"] := by
  decide

/-- C6 counterexample: a "+++ "/".F90" header followed by a line with
fewer than three whitespace-delimited tokens makes wrapped_files raise
IndexError (hunks[2]), and a "+++" line with no second token makes
get_added_files raise IndexError (line.split()[1]), contrary to the
no-exception claim. -/
theorem diff_scan_exception_counterexample :
    wrapped_files ["+++ a.F90", "@@", "x", "y"] = .error .indexError ∧
    get_added_files ["+++"] = .error .indexError := by
  decide

/-- C8 counterexample: the input "a\n\nb" has no comment pairs, no line
ending in a backslash, and no trailing blank lines, yet clean_text drops
the interior blank line instead of returning the input unchanged. -/
theorem clean_text_blank_line_counterexample :
    clean_text "a\n\nb" = "a\nb" ∧ "a\nb" ≠ "a\n\nb" := by
  decide

/-- C9 counterexample: the closing */ of the block comment sits at column
0 of its line, and instead of keeping the text after it (" keep" and the
following line "x"), clean_text discards that whole line, leaves the
comment open, and also swallows the rest of the file. -/
theorem clean_text_column_zero_counterexample :
    pyFind "*/ keep" "*/" = some 0 ∧
    clean_text "a /*\nbody\n*/ keep\nx" = "a" := by
  decide

/-
Helper lemmas about the wrapped_files scan.
-/

theorem wrappedAux_sub (acc L : List String) :
    ∀ ws, wrappedAux acc L = .ok ws → ∃ t, ws = acc ++ t := by
  induction acc, L using wrappedAux.induct with
  | case1 acc l0 l1 l2 rest line hg hunks hnone =>
    intro ws h
    have hg2 : (pyStartsWith (pyStrip l0) "+++ " && pyContains (pyStrip l0) ".F90") = true := hg
    have hn2 : (pySplit l1)[2]? = none := hnone
    rw [wrappedAux.eq_def] at h
    simp only [hg2, hn2, if_true] at h
    exact Except.noConfusion h
  | case2 acc l0 l1 l2 rest line hg hunks h2 hsome hif name hname ih =>
    intro ws h
    have hg2 : (pyStartsWith (pyStrip l0) "+++ " && pyContains (pyStrip l0) ".F90") = true := hg
    have hs2 : (pySplit l1)[2]? = some h2 := hsome
    have hn2 : (pySplit (pyStrip l0))[1]? = some name := hname
    rw [wrappedAux.eq_def] at h
    simp only [hg2, hs2, hif, hn2, if_true] at h
    obtain ⟨t, ht⟩ := ih ws h
    exact ⟨name :: t, by simp [ht]⟩
  | case3 acc l0 l1 l2 rest line hg hunks h2 hsome hif hnone =>
    intro ws h
    have hg2 : (pyStartsWith (pyStrip l0) "+++ " && pyContains (pyStrip l0) ".F90") = true := hg
    have hs2 : (pySplit l1)[2]? = some h2 := hsome
    have hn2 : (pySplit (pyStrip l0))[1]? = none := hnone
    rw [wrappedAux.eq_def] at h
    simp only [hg2, hs2, hif, hn2, if_true] at h
    exact Except.noConfusion h
  | case4 acc l0 l1 l2 rest line hg hunks h2 hsome hif ih =>
    intro ws h
    have hg2 : (pyStartsWith (pyStrip l0) "+++ " && pyContains (pyStrip l0) ".F90") = true := hg
    have hs2 : (pySplit l1)[2]? = some h2 := hsome
    rw [wrappedAux.eq_def] at h
    simp only [hg2, hs2, hif, if_true] at h
    exact ih ws h
  | case5 acc l0 l1 l2 rest line hg ih =>
    intro ws h
    have hg2 : ¬(pyStartsWith (pyStrip l0) "+++ " && pyContains (pyStrip l0) ".F90") = true := hg
    rw [wrappedAux.eq_def] at h
    simp only [hg2, if_false] at h
    exact ih ws h
  | case6 t acc hne =>
    intro ws h
    rcases t with _ | ⟨a, _ | ⟨b, _ | ⟨c, r⟩⟩⟩
    · simp [wrappedAux] at h
      exact ⟨[], by simp [h]⟩
    · simp [wrappedAux] at h
      exact ⟨[], by simp [h]⟩
    · simp [wrappedAux] at h
      exact ⟨[], by simp [h]⟩
    · exact absurd rfl (hne a b c r)

theorem wrappedAux_skip (acc : List String) (p : String) (L : List String)
    (hm : wfMatch p = false) (hL : 2 ≤ L.length) :
    wrappedAux acc (p :: L) = wrappedAux acc L := by
  rcases L with _ | ⟨x, _ | ⟨y, r⟩⟩
  · simp at hL
  · simp at hL
  · rw [wrappedAux.eq_def]
    simp only [wfMatch] at hm
    simp only [hm, Bool.false_eq_true, if_false]

theorem wrappedAux_reach (a b c h2 name : String) (rest : List String)
    (ha : wfMatch a = true)
    (hb : (pySplit b)[2]? = some h2)
    (hb2 : pyStartsWith h2 "+1," = true)
    (hc : pyStartsWith c "+#if" = true)
    (hname : (pySplit (pyStrip a))[1]? = some name) :
    ∀ (pre : List String) (acc : List String), (∀ l ∈ pre, wfMatch l = false) →
      wrappedAux acc (pre ++ a :: b :: c :: rest) =
        wrappedAux (acc ++ [name]) (c :: rest) := by
  intro pre
  induction pre with
  | nil =>
    intro acc _
    simp only [List.nil_append]
    rw [wrappedAux.eq_def]
    simp only [wfMatch] at ha
    simp only [ha, hb, hb2, hc, hname, if_true, Bool.and_self]
  | cons p pre ih =>
    intro acc hpre
    have hp : wfMatch p = false := hpre p (by simp)
    have hlen : 2 ≤ (pre ++ a :: b :: c :: rest).length := by
      simp [List.length_append]; omega
    rw [List.cons_append, wrappedAux_skip acc p _ hp hlen]
    exact ih acc (fun l hl => hpre l (by simp [hl]))

theorem wrappedAux_sound (acc L : List String) :
    ∀ ws, wrappedAux acc L = .ok ws → ∀ nm ∈ ws,
      nm ∈ acc ∨ ∃ l ∈ L, wfMatch l = true ∧ (pySplit (pyStrip l))[1]? = some nm := by
  induction acc, L using wrappedAux.induct with
  | case1 acc l0 l1 l2 rest line hg hunks hnone =>
    intro ws h
    have hg2 : (pyStartsWith (pyStrip l0) "+++ " && pyContains (pyStrip l0) ".F90") = true := hg
    have hn2 : (pySplit l1)[2]? = none := hnone
    rw [wrappedAux.eq_def] at h
    simp only [hg2, hn2, if_true] at h
    exact Except.noConfusion h
  | case2 acc l0 l1 l2 rest line hg hunks h2 hsome hif name hname ih =>
    intro ws h nm hnm
    have hg2 : (pyStartsWith (pyStrip l0) "+++ " && pyContains (pyStrip l0) ".F90") = true := hg
    have hs2 : (pySplit l1)[2]? = some h2 := hsome
    have hn2 : (pySplit (pyStrip l0))[1]? = some name := hname
    rw [wrappedAux.eq_def] at h
    simp only [hg2, hs2, hif, hn2, if_true] at h
    rcases ih ws h nm hnm with hin | ⟨l, hl, hml⟩
    · rcases List.mem_append.mp hin with h1 | h1
      · exact Or.inl h1
      · right
        simp only [List.mem_singleton] at h1
        exact ⟨l0, by simp, by simpa [wfMatch] using hg2, h1 ▸ hn2⟩
    · right
      refine ⟨l, ?_, hml⟩
      simp only [List.mem_cons] at hl ⊢
      tauto
  | case3 acc l0 l1 l2 rest line hg hunks h2 hsome hif hnone =>
    intro ws h
    have hg2 : (pyStartsWith (pyStrip l0) "+++ " && pyContains (pyStrip l0) ".F90") = true := hg
    have hs2 : (pySplit l1)[2]? = some h2 := hsome
    have hn2 : (pySplit (pyStrip l0))[1]? = none := hnone
    rw [wrappedAux.eq_def] at h
    simp only [hg2, hs2, hif, hn2, if_true] at h
    exact Except.noConfusion h
  | case4 acc l0 l1 l2 rest line hg hunks h2 hsome hif ih =>
    intro ws h nm hnm
    have hg2 : (pyStartsWith (pyStrip l0) "+++ " && pyContains (pyStrip l0) ".F90") = true := hg
    have hs2 : (pySplit l1)[2]? = some h2 := hsome
    rw [wrappedAux.eq_def] at h
    simp only [hg2, hs2, hif, if_true] at h
    rcases ih ws h nm hnm with hin | ⟨l, hl, hml⟩
    · exact Or.inl hin
    · right
      refine ⟨l, ?_, hml⟩
      simp only [List.mem_cons] at hl ⊢
      tauto
  | case5 acc l0 l1 l2 rest line hg ih =>
    intro ws h nm hnm
    have hg2 : ¬(pyStartsWith (pyStrip l0) "+++ " && pyContains (pyStrip l0) ".F90") = true := hg
    rw [wrappedAux.eq_def] at h
    simp only [hg2, if_false] at h
    rcases ih ws h nm hnm with hin | ⟨l, hl, hml⟩
    · exact Or.inl hin
    · right
      refine ⟨l, ?_, hml⟩
      simp only [List.mem_cons] at hl ⊢
      tauto
  | case6 t acc hne =>
    intro ws h nm hnm
    rcases t with _ | ⟨a, _ | ⟨b, _ | ⟨c, r⟩⟩⟩
    · simp [wrappedAux] at h
      exact Or.inl (h ▸ hnm)
    · simp [wrappedAux] at h
      exact Or.inl (h ▸ hnm)
    · simp [wrappedAux] at h
      exact Or.inl (h ▸ hnm)
    · exact absurd rfl (hne a b c r)

theorem wfSafe_tail (x : String) (T : List String) (h : wfSafe (x :: T)) :
    wfSafe T := by
  intro i hi hi2 hm
  have h3 := h (i + 1) (by simp only [List.length_cons]; omega)
    (by simp only [List.length_cons]; omega)
    (by simpa [List.getD_cons_succ] using hm)
  simpa [List.getD_cons_succ] using h3

theorem wrappedAux_total (acc L : List String) :
    wfSafe L → ∃ ws, wrappedAux acc L = .ok ws := by
  induction acc, L using wrappedAux.induct with
  | case1 acc l0 l1 l2 rest line hg hunks hnone =>
    intro hs
    have hg2 : wfMatch l0 = true := by simpa [wfMatch] using hg
    have hn2 : (pySplit l1)[2]? = none := hnone
    have h3 := hs 0 (by simp) (by simp only [List.length_cons]; omega)
      (by simpa [List.getD] using hg2)
    rw [List.getElem?_eq_none_iff] at hn2
    simp only [List.getD_cons_succ, List.getD_cons_zero] at h3
    omega
  | case2 acc l0 l1 l2 rest line hg hunks h2 hsome hif name hname ih =>
    intro hs
    have hg2 : (pyStartsWith (pyStrip l0) "+++ " && pyContains (pyStrip l0) ".F90") = true := hg
    have hs2 : (pySplit l1)[2]? = some h2 := hsome
    have hn2 : (pySplit (pyStrip l0))[1]? = some name := hname
    obtain ⟨ws, hws⟩ := ih (wfSafe_tail l1 _ (wfSafe_tail l0 _ hs))
    refine ⟨ws, ?_⟩
    rw [wrappedAux.eq_def]
    simp only [hg2, hs2, hif, hn2, if_true]
    exact hws
  | case3 acc l0 l1 l2 rest line hg hunks h2 hsome hif hnone =>
    intro hs
    have hg2 : wfMatch l0 = true := by simpa [wfMatch] using hg
    have hn2 : (pySplit (pyStrip l0))[1]? = none := hnone
    have h3 := hs 0 (by simp) (by simp only [List.length_cons]; omega)
      (by simpa [List.getD] using hg2)
    simp only [List.getD_cons_zero] at h3
    rw [hn2] at h3
    simp at h3
  | case4 acc l0 l1 l2 rest line hg hunks h2 hsome hif ih =>
    intro hs
    have hg2 : (pyStartsWith (pyStrip l0) "+++ " && pyContains (pyStrip l0) ".F90") = true := hg
    have hs2 : (pySplit l1)[2]? = some h2 := hsome
    obtain ⟨ws, hws⟩ := ih (wfSafe_tail l1 _ (wfSafe_tail l0 _ hs))
    refine ⟨ws, ?_⟩
    rw [wrappedAux.eq_def]
    simp only [hg2, hs2, hif, if_true]
    exact hws
  | case5 acc l0 l1 l2 rest line hg ih =>
    intro hs
    have hg2 : ¬(pyStartsWith (pyStrip l0) "+++ " && pyContains (pyStrip l0) ".F90") = true := hg
    obtain ⟨ws, hws⟩ := ih (wfSafe_tail l0 _ hs)
    refine ⟨ws, ?_⟩
    rw [wrappedAux.eq_def]
    simp only [hg2, if_false]
    exact hws
  | case6 t acc hne =>
    intro _
    rcases t with _ | ⟨a, _ | ⟨b, _ | ⟨c, r⟩⟩⟩
    · exact ⟨acc, by simp [wrappedAux]⟩
    · exact ⟨acc, by simp [wrappedAux]⟩
    · exact ⟨acc, by simp [wrappedAux]⟩
    · exact absurd rfl (hne a b c r)

/-
Helper lemmas about the get_added_files scan.
-/

theorem gafAux_ext (name : Option String) (cf : Bool) (L : List String) :
    (∀ s, name = some s → cf = true →
      code_extensions.contains (pyLower (pathSuffix s)) = true) →
    ∀ out, gafAux name cf L = .ok out →
    ∀ p ∈ out, code_extensions.contains (pyLower (pathSuffix p)) = true := by
  induction name, cf, L using gafAux.induct with
  | case1 name cf =>
    intro _ out h p hp
    simp only [gafAux] at h
    cases h
    simp at hp
  | case2 name cf l rest hpl hn =>
    intro _ out h
    simp only [gafAux, hpl, hn, if_true] at h
    exact Except.noConfusion h
  | case3 name cf l rest hpl nm hnm ih =>
    intro _ out h p hp
    simp only [gafAux, hpl, hnm, if_true] at h
    exact ih (fun s hs hc => by cases hs; exact hc) out h p hp
  | case4 cf l rest hpl nm hguard ih =>
    intro hinv out h p hp
    simp only [gafAux, hpl, Bool.false_eq_true, if_false, hguard, if_true] at h
    rcases hX : gafAux none false rest with e | outr
    · rw [hX] at h
      exact Except.noConfusion h
    · rw [hX] at h
      simp only [Except.map] at h
      cases h
      rcases List.mem_cons.mp hp with rfl | hp2
      · exact hinv p rfl (Bool.and_elim_right hguard)
      · exact ih (by simp) outr hX p hp2
  | case5 cf l rest hpl nm hng ih =>
    intro hinv out h p hp
    have hb : (pyStartsWith l "+" && cf) = false := by
      rcases hb2 : (pyStartsWith l "+" && cf) with _ | _
      · rfl
      · exact absurd hb2 hng
    simp only [gafAux, hpl, Bool.false_eq_true, if_false, hb] at h
    exact ih hinv out h p hp
  | case6 cf l rest hpl ih =>
    intro hinv out h p hp
    simp only [gafAux, hpl, Bool.false_eq_true, if_false] at h
    exact ih (by simp) out h p hp

theorem gafAux_none (L : List String) :
    ∀ cf, (∀ l ∈ L, pyStartsWith l "+++" = false) →
      gafAux none cf L = .ok [] := by
  induction L with
  | nil => intro cf _; simp [gafAux]
  | cons l rest ih =>
    intro cf hL
    have hl : pyStartsWith l "+++" = false := hL l (by simp)
    simp only [gafAux, hl, Bool.false_eq_true, if_false]
    exact ih cf (fun x hx => hL x (by simp [hx]))

theorem gafAux_le_one (L : List String) :
    ∀ (name : Option String) (cf : Bool) (out : List String),
      (∀ l ∈ L, pyStartsWith l "+++" = false) →
      gafAux name cf L = .ok out → out.length ≤ 1 := by
  induction L with
  | nil =>
    intro name cf out _ h
    simp only [gafAux] at h
    cases h
    simp
  | cons l rest ih =>
    intro name cf out hL h
    have hl : pyStartsWith l "+++" = false := hL l (by simp)
    have hrest : ∀ x ∈ rest, pyStartsWith x "+++" = false :=
      fun x hx => hL x (by simp [hx])
    simp only [gafAux, hl, Bool.false_eq_true, if_false] at h
    rcases name with _ | nm
    · exact ih none cf out hrest h
    · rcases hb : (pyStartsWith l "+" && cf) with _ | _
      · rw [hb] at h
        simp only [Bool.false_eq_true, if_false] at h
        exact ih (some nm) cf out hrest h
      · rw [hb] at h
        simp only [if_true] at h
        rw [gafAux_none rest false hrest] at h
        simp only [Except.map] at h
        cases h
        simp

theorem gafAux_total (name : Option String) (cf : Bool) (L : List String) :
    gafSafe L → ∃ out, gafAux name cf L = .ok out := by
  induction name, cf, L using gafAux.induct with
  | case1 name cf =>
    intro _
    exact ⟨[], by simp [gafAux]⟩
  | case2 name cf l rest hpl hn =>
    intro hs
    have := hs l (by simp) hpl
    rw [hn] at this
    simp at this
  | case3 name cf l rest hpl nm hnm ih =>
    intro hs
    obtain ⟨out, hout⟩ := ih (fun x hx => hs x (by simp [hx]))
    exact ⟨out, by simp only [gafAux, hpl, hnm, if_true]; exact hout⟩
  | case4 cf l rest hpl nm hguard ih =>
    intro hs
    obtain ⟨out, hout⟩ := ih (fun x hx => hs x (by simp [hx]))
    refine ⟨nm :: out, ?_⟩
    simp only [gafAux, hpl, Bool.false_eq_true, if_false, hguard, if_true]
    rw [hout]
    rfl
  | case5 cf l rest hpl nm hng ih =>
    intro hs
    obtain ⟨out, hout⟩ := ih (fun x hx => hs x (by simp [hx]))
    have hb : (pyStartsWith l "+" && cf) = false := by
      rcases hb2 : (pyStartsWith l "+" && cf) with _ | _
      · rfl
      · exact absurd hb2 hng
    exact ⟨out, by simp only [gafAux, hpl, Bool.false_eq_true, if_false, hb]; exact hout⟩
  | case6 cf l rest hpl ih =>
    intro hs
    obtain ⟨out, hout⟩ := ih (fun x hx => hs x (by simp [hx]))
    exact ⟨out, by simp only [gafAux, hpl, Bool.false_eq_true, if_false]; exact hout⟩

/-- C2 (amended): for a stripped "+++ " line containing ".F90" followed
by a hunk header whose third whitespace token starts with "+1," and then
a line beginning "+#if": (i) whenever the scan reaches that header line,
with any accumulated state, it appends the line's second whitespace
token to the wrapped list and moves on — so a reached pattern is always
recorded; (ii) in a whole run in which no earlier line passes the header
test (an earlier "+++ "/".F90" line makes the scanner skip the line
after it, which can be the matching header itself — see counterexample)
and which ends without exception, wrapped_files records that token and
its return value is the length of the recorded list; (iii) the spec
example diff gives count 1 and records "test.F90" without path
prefixes, "b/test.F90" with them. -/
theorem wrapped_files_first_match_recorded
    (preL rest acc : List String) (a b c h2 name : String)
    (ws : List String) (n : Nat)
    (hpre : ∀ l ∈ preL, wfMatch l = false)
    (ha : wfMatch a = true)
    (hb : (pySplit b)[2]? = some h2)
    (hb2 : pyStartsWith h2 "+1," = true)
    (hc : pyStartsWith c "+#if" = true)
    (hname : (pySplit (pyStrip a))[1]? = some name)
    (hok : wrapped_files (preL ++ a :: b :: c :: rest) = .ok (ws, n)) :
    wrappedAux acc (a :: b :: c :: rest) = wrappedAux (acc ++ [name]) (c :: rest) ∧
    (name ∈ ws ∧ n = ws.length) ∧
    wrapped_files ["+++ test.F90", "@@ -1,2 +1,4 @@", "+#ifdef FOO"] =
      .ok (["test.F90"], 1) ∧
    wrapped_files ["+++ b/test.F90", "@@ -1,2 +1,4 @@", "+#ifdef FOO"] =
      .ok (["b/test.F90"], 1) := by
  refine ⟨?_, ?_, by decide, by decide⟩
  · have hstep := wrappedAux_reach a b c h2 name rest ha hb hb2 hc hname [] acc
      (by simp)
    simpa using hstep
  · unfold wrapped_files at hok
    rcases hW : wrappedAux [] (preL ++ a :: b :: c :: rest) with e | ws2
    · rw [hW] at hok
      exact Except.noConfusion hok
    · rw [hW] at hok
      simp only [Except.ok.injEq, Prod.mk.injEq] at hok
      obtain ⟨rfl, rfl⟩ := hok
      rw [wrappedAux_reach a b c h2 name rest ha hb hb2 hc hname preL [] hpre] at hW
      obtain ⟨t, ht⟩ := wrappedAux_sub ([] ++ [name]) (c :: rest) ws2 hW
      subst ht
      simp

theorem wrapped_files_first_match_recorded_witness :
    wfMatch "+++ b/test.F90" = true ∧
    wrapped_files ["+++ b/test.F90", "@@ -1,2 +1,4 @@", "+#ifdef FOO"] =
      .ok (["b/test.F90"], 1) ∧
    (wrappedAux [] ["+++ b/test.F90", "@@ -1,2 +1,4 @@", "+#ifdef FOO"] =
        wrappedAux ([] ++ ["b/test.F90"]) ["+#ifdef FOO"] ∧
      ("b/test.F90" ∈ ["b/test.F90"] ∧ 1 = (["b/test.F90"] : List String).length) ∧
      wrapped_files ["+++ test.F90", "@@ -1,2 +1,4 @@", "+#ifdef FOO"] =
        .ok (["test.F90"], 1) ∧
      wrapped_files ["+++ b/test.F90", "@@ -1,2 +1,4 @@", "+#ifdef FOO"] =
        .ok (["b/test.F90"], 1)) :=
  ⟨by decide, by decide,
    wrapped_files_first_match_recorded [] [] [] "+++ b/test.F90" "@@ -1,2 +1,4 @@"
      "+#ifdef FOO" "+1,4" "b/test.F90" ["b/test.F90"] 1
      (by simp) (by decide) (by decide) (by decide) (by decide) (by decide)
      (by decide)⟩

/-- C4 (amended): eligibility for wrapped_files is the substring test
".F90" in the stripped header line (case-sensitive), not a suffix test:
every recorded name is the second whitespace token of some line of the
diff that starts with "+++ " and contains ".F90" somewhere; the name
itself need not end in ".F90". -/
theorem wrapped_files_recorded_from_header
    (diff ws : List String) (n : Nat) (h : wrapped_files diff = .ok (ws, n)) :
    ∀ nm ∈ ws, ∃ l ∈ diff, wfMatch l = true ∧
      (pySplit (pyStrip l))[1]? = some nm := by
  unfold wrapped_files at h
  rcases hW : wrappedAux [] diff with e | ws2
  · rw [hW] at h
    exact Except.noConfusion h
  · rw [hW] at h
    simp only [Except.ok.injEq, Prod.mk.injEq] at h
    obtain ⟨rfl, _⟩ := h
    intro nm hnm
    rcases wrappedAux_sound [] diff ws2 hW nm hnm with hin | hex
    · simp at hin
    · exact hex

theorem wrapped_files_recorded_from_header_witness :
    wrapped_files ["+++ a.F90.txt", "@@ -1,2 +1,4 @@", "+#ifdef FOO"] =
      .ok (["a.F90.txt"], 1) ∧
    (∃ l ∈ ["+++ a.F90.txt", "@@ -1,2 +1,4 @@", "+#ifdef FOO"],
      wfMatch l = true ∧ (pySplit (pyStrip l))[1]? = some "a.F90.txt") :=
  ⟨by decide,
    wrapped_files_recorded_from_header ["+++ a.F90.txt", "@@ -1,2 +1,4 @@", "+#ifdef FOO"]
      ["a.F90.txt"] 1 (by decide) "a.F90.txt" (by decide)⟩

/-- C6 (amended): the scanners raise no exception on well-formed diffs:
if every scannable "+++ "/".F90" header line is followed by a line with
at least three whitespace tokens and has a second token itself, and every
"+++" line has a second token, then wrapped_files and get_added_files
both return normally; truncation or absence of the pattern alone never
raises (the error cases are exactly the hunks[2] / split()[1] lookups
exhibited in the counterexample). -/
theorem diff_scan_no_exception_wellformed (diff : List String)
    (hw : wfSafe diff) (hg : gafSafe diff) :
    (∃ r, wrapped_files diff = .ok r) ∧ (∃ out, get_added_files diff = .ok out) := by
  constructor
  · obtain ⟨ws, h⟩ := wrappedAux_total [] diff hw
    exact ⟨(ws, ws.length), by unfold wrapped_files; rw [h]⟩
  · obtain ⟨out, h⟩ := gafAux_total none false diff hg
    exact ⟨out, h⟩

theorem diff_scan_no_exception_wellformed_witness :
    wfSafe ["+++ f.c", "+x", "y", "z"] ∧ gafSafe ["+++ f.c", "+x", "y", "z"] ∧
    ((∃ r, wrapped_files ["+++ f.c", "+x", "y", "z"] = .ok r) ∧
     (∃ out, get_added_files ["+++ f.c", "+x", "y", "z"] = .ok out)) :=
  ⟨by decide, by decide,
    diff_scan_no_exception_wellformed _ (by decide) (by decide)⟩

/-- C5 (amended): get_added_files yields only paths whose suffix,
lower-cased, is a recognized source extension; a "+++" line for
readme.txt followed by an added line yields nothing; and a file with two
hunks that both insert lines is yielded exactly once (after the first
added line the current-file tracking is cleared), not once per hunk. -/
theorem get_added_files_yield_spec :
    (∀ (diff out : List String), get_added_files diff = .ok out →
      ∀ p ∈ out, code_extensions.contains (pyLower (pathSuffix p)) = true) ∧
    get_added_files ["+++ readme.txt", "+some text"] = .ok [] ∧
    get_added_files ["+++ a.c", "@@ -1,1 +1,2 @@", "+x", "@@ -5,1 +5,2 @@", "+y"] =
      .ok ["a.c"] := by
  refine ⟨?_, by decide, by decide⟩
  intro diff out h p hp
  exact gafAux_ext none false diff (by simp) out h p hp

theorem get_added_files_yield_spec_witness :
    get_added_files ["+++ a.c", "+z"] = .ok ["a.c"] ∧
    code_extensions.contains (pyLower (pathSuffix "a.c")) = true :=
  ⟨by decide,
    get_added_files_yield_spec.1 ["+++ a.c", "+z"] ["a.c"] (by decide) "a.c"
      (by decide)⟩

/-- C10: between one "+++" header line and the next, get_added_files
yields at most one path: from any generator state, scanning a "+++"
header followed by lines none of which is another "+++" header produces
at most one yield, because the first added line clears the current-file
tracking. -/
theorem get_added_files_once_per_header
    (name : Option String) (cf : Bool) (h : String) (rest out : List String)
    (hh : pyStartsWith h "+++" = true)
    (hrest : ∀ l ∈ rest, pyStartsWith l "+++" = false)
    (hok : gafAux name cf (h :: rest) = .ok out) :
    out.length ≤ 1 := by
  simp only [gafAux, hh, if_true] at hok
  rcases hn : (pySplit h)[1]? with _ | nm
  · rw [hn] at hok
    exact Except.noConfusion hok
  · rw [hn] at hok
    exact gafAux_le_one rest (some nm) _ out hrest hok

theorem get_added_files_once_per_header_witness :
    pyStartsWith "+++ a.c" "+++" = true ∧
    gafAux none false ["+++ a.c", "@@ -1,1 +1,2 @@", "+x", "@@ -5,1 +5,2 @@", "+y"] =
      .ok ["a.c"] ∧
    (["a.c"] : List String).length ≤ 1 :=
  ⟨by decide, by decide,
    get_added_files_once_per_header none false "+++ a.c"
      ["@@ -1,1 +1,2 @@", "+x", "@@ -5,1 +5,2 @@", "+y"] ["a.c"]
      (by decide) (by decide) (by decide)⟩

/-
Helper lemmas about the directive scanner and the retired-macro fold.
-/

theorem startsWith_elif_not_if (s : String) (h : pyStartsWith s "#elif" = true) :
    pyStartsWith s "#ifdef" = false ∧ pyStartsWith s "#ifndef" = false ∧
    pyStartsWith s "#if" = false := by
  unfold pyStartsWith at h ⊢
  rcases hd : s.data with _ | ⟨c0, _ | ⟨c1, rest⟩⟩ <;> rw [hd] at h
  · simp [List.isPrefixOf] at h
  · simp [List.isPrefixOf] at h
  · simp only [show ("#elif").data = ['#', 'e', 'l', 'i', 'f'] from rfl,
      List.isPrefixOf, Bool.and_eq_true, beq_iff_eq] at h
    obtain ⟨rfl, rfl, _⟩ := h
    refine ⟨?_, ?_, ?_⟩ <;>
      simp [List.isPrefixOf]

theorem mem_foldl_matched (retired : List String) (macros : List String) :
    ∀ (s : Finset String) (x : String),
      (x ∈ macros.foldl (fun s m => if m ∈ retired then insert m s else s) s) ↔
      x ∈ s ∨ (x ∈ macros ∧ x ∈ retired) := by
  induction macros with
  | nil => intro s x; simp
  | cons m rest ih =>
    intro s x
    simp only [List.foldl_cons]
    rw [ih]
    by_cases hm : m ∈ retired
    · simp only [if_pos hm, Finset.mem_insert, List.mem_cons]
      constructor
      · rintro ((rfl | hx) | ⟨hr, hret⟩)
        · exact Or.inr ⟨Or.inl rfl, hm⟩
        · exact Or.inl hx
        · exact Or.inr ⟨Or.inr hr, hret⟩
      · rintro (hx | ⟨rfl | hr, hret⟩)
        · exact Or.inl (Or.inr hx)
        · exact Or.inl (Or.inl rfl)
        · exact Or.inr ⟨hr, hret⟩
    · simp only [if_neg hm, List.mem_cons]
      constructor
      · rintro (hx | ⟨hr, hret⟩)
        · exact Or.inl hx
        · exact Or.inr ⟨Or.inr hr, hret⟩
      · rintro (hx | ⟨rfl | hr, hret⟩)
        · exact Or.inl hx
        · exact absurd hret hm
        · exact Or.inr ⟨hr, hret⟩

theorem mem_matchedSet (retired macros : List String) (x : String) :
    x ∈ matchedSet retired macros ↔ x ∈ macros ∧ x ∈ retired := by
  unfold matchedSet
  rw [mem_foldl_matched]
  simp

/-- C1: inspect_file is clean exactly when no referenced macro is in the
retired list; it unions exactly the deduplicated set of matching macros
into the accumulator; that contribution is always a subset of the
retired set (so an accumulator inside the retired set stays inside); and
both the boolean and the contribution are the same for every incoming
accumulator, i.e. independent of matches found in other files. -/
theorem inspect_file_retired_spec
    (retired : List String) (additions : Finset String) (text : String)
    (macros : List String)
    (h : find_ifdefs (clean_text text) = .ok macros) :
    inspect_file retired additions text =
      .ok (decide ((matchedSet retired macros).card = 0),
        additions ∪ matchedSet retired macros) ∧
    ((matchedSet retired macros).card = 0 ↔ ∀ m ∈ macros, m ∉ retired) ∧
    matchedSet retired macros ⊆ retired.toFinset ∧
    (additions ⊆ retired.toFinset →
      additions ∪ matchedSet retired macros ⊆ retired.toFinset) := by
  have hsub : matchedSet retired macros ⊆ retired.toFinset := by
    intro x hx
    obtain ⟨_, hr⟩ := (mem_matchedSet retired macros x).mp hx
    exact List.mem_toFinset.mpr hr
  refine ⟨?_, ?_, hsub, fun hs => Finset.union_subset hs hsub⟩
  · simp only [inspect_file, h]
  · rw [Finset.card_eq_zero, Finset.eq_empty_iff_forall_not_mem]
    constructor
    · intro hall m hm hr
      exact hall m ((mem_matchedSet retired macros m).mpr ⟨hm, hr⟩)
    · intro hall x hx
      obtain ⟨hm, hr⟩ := (mem_matchedSet retired macros x).mp hx
      exact hall x hm hr

theorem inspect_file_retired_spec_witness :
    find_ifdefs (clean_text "#ifdef ABC\n#ifdef ABC\n#ifdef CDE") =
      .ok ["ABC", "ABC", "CDE"] ∧
    (inspect_file ["ABC"] ∅ "#ifdef ABC\n#ifdef ABC\n#ifdef CDE" =
      .ok (decide ((matchedSet ["ABC"] ["ABC", "ABC", "CDE"]).card = 0),
        ∅ ∪ matchedSet ["ABC"] ["ABC", "ABC", "CDE"]) ∧
    ((matchedSet ["ABC"] ["ABC", "ABC", "CDE"]).card = 0 ↔
      ∀ m ∈ ["ABC", "ABC", "CDE"], m ∉ ["ABC"]) ∧
    matchedSet ["ABC"] ["ABC", "ABC", "CDE"] ⊆ (["ABC"] : List String).toFinset ∧
    ((∅ : Finset String) ⊆ (["ABC"] : List String).toFinset →
      ∅ ∪ matchedSet ["ABC"] ["ABC", "ABC", "CDE"] ⊆
        (["ABC"] : List String).toFinset)) :=
  ⟨by decide,
    inspect_file_retired_spec ["ABC"] ∅ "#ifdef ABC\n#ifdef ABC\n#ifdef CDE"
      ["ABC", "ABC", "CDE"] (by decide)⟩

/-- C3 (amended): a line whose stripped form starts with "#elif" is
routed into defined-token extraction exactly when it contains "defined";
the operator precedence of the condition (or binding looser than and)
means such lines need not also start with "#if" — which they never do. -/
theorem find_ifdefs_elif_routing (line0 : String)
    (h : pyStartsWith (pyStrip line0) "#elif" = true) :
    findIfdefsLine line0 =
      .ok (if pyContains (pyStrip line0) "defined" then
        defined_tokens (pyStrip line0) else []) := by
  obtain ⟨h1, h2, h3⟩ := startsWith_elif_not_if (pyStrip line0) h
  unfold findIfdefsLine
  simp only [h1, h2, h3, h, Bool.or_self, Bool.false_eq_true, if_false,
    Bool.true_and, Bool.false_or]
  rcases hC : pyContains (pyStrip line0) "defined" with _ | _ <;> simp [hC]

theorem find_ifdefs_elif_routing_witness :
    pyStartsWith (pyStrip "#elif defined(X)") "#elif" = true ∧
    findIfdefsLine "#elif defined(X)" =
      .ok (if pyContains (pyStrip "#elif defined(X)") "defined" then
        defined_tokens (pyStrip "#elif defined(X)") else []) :=
  ⟨by decide, find_ifdefs_elif_routing "#elif defined(X)" (by decide)⟩

/-
Helper lemmas about the text normalizer.
-/

theorem isPrefixOf_snoc_nl (a b : Char) (hb : b ≠ '\n') (l : List Char) :
    [a, b].isPrefixOf (l ++ ['\n']) = [a, b].isPrefixOf l := by
  rcases l with _ | ⟨c, _ | ⟨x, xs⟩⟩ <;> simp [List.isPrefixOf, hb]

theorem subFindAux_snoc_nl (a b : Char) (hb : b ≠ '\n') :
    ∀ (l : List Char) (i : Nat),
      subFindAux [a, b] (l ++ ['\n']) i = subFindAux [a, b] l i := by
  intro l
  induction l with
  | nil =>
    intro i
    simp [subFindAux, List.isPrefixOf, hb]
  | cons c l ih =>
    intro i
    have hpre := isPrefixOf_snoc_nl a b hb (c :: l)
    rw [List.cons_append]
    simp only [subFindAux]
    rw [← List.cons_append, hpre, ih (i + 1)]

theorem pyFind_snoc_nl_open (l : String) :
    pyFind (l ++ "\n") "/*" = pyFind l "/*" :=
  subFindAux_snoc_nl '/' '*' (by decide) l.data 0

theorem pyFind_snoc_nl_close (l : String) :
    pyFind (l ++ "\n") "*/" = pyFind l "*/" :=
  subFindAux_snoc_nl '*' '/' (by decide) l.data 0

theorem cleanLine_plain (acc : String) (l : String)
    (h1 : pyFind l "/*" = none) (h2 : pyEndsWith l "\\" = false) :
    cleanLine ⟨false, false, acc⟩ l =
      ⟨false, false, acc ++ (if l = "" then "" else l ++ "\n")⟩ := by
  unfold cleanLine
  by_cases hl : l = ""
  · subst hl
    simp [pyFind, subFindAux, h2]
  · simp only [h2, Bool.false_eq_true, if_false, ne_eq, hl, not_false_eq_true,
      if_true]
    rw [pyFind_snoc_nl_open, h1]

theorem clean_fold_plain (ls : List String) :
    ∀ acc, (∀ l ∈ ls, pyFind l "/*" = none ∧ pyEndsWith l "\\" = false) →
      ls.foldl cleanLine ⟨false, false, acc⟩ =
        ⟨false, false, acc ++ plainJoin ls⟩ := by
  induction ls with
  | nil =>
    intro acc _
    simp [plainJoin]
  | cons l ls ih =>
    intro acc h
    obtain ⟨h1, h2⟩ := h l (by simp)
    simp only [List.foldl_cons]
    rw [cleanLine_plain acc l h1 h2, ih _ (fun x hx => h x (by simp [hx]))]
    simp only [CleanState.mk.injEq, true_and]
    rw [String.append_assoc]
    simp [plainJoin]

/-- C8 (amended): on text in which no line contains a block-comment
opener and no line ends in a backslash, clean_text returns the
concatenation of the nonempty lines, each verbatim with one newline,
with trailing whitespace stripped: the input unchanged except that empty
lines are dropped and trailing blanks trimmed. -/
theorem clean_text_plain (text : String)
    (h : ∀ l ∈ pyLines text, pyFind l "/*" = none ∧ pyEndsWith l "\\" = false) :
    clean_text text = pyRStrip (plainJoin (pyLines text)) := by
  unfold clean_text
  rw [clean_fold_plain (pyLines text) "" h]
  rfl

/-- C9 (amended): while inside a multi-line block comment, a line with
no "/*": if its first "*/" is at column 1 or later, the comment closes
and the text after the "*/" is kept (left-stripped, with the line's
newline); if its first "*/" is at column 0, or it has none, the entire
line is discarded and the comment stays open.  A concrete run shows the
closing line's trailing text and the following lines being kept. -/
theorem clean_text_block_close_step (acc l : String) (e : Nat)
    (h1 : pyEndsWith l "\\" = false) (h2 : pyFind l "/*" = none) :
    (pyFind l "*/" = some e → 0 < e →
      cleanLine ⟨false, true, acc⟩ l =
        ⟨false, false, acc ++ pyLStrip (strDrop (l ++ "\n") (e + 2))⟩) ∧
    (pyFind l "*/" = some 0 →
      cleanLine ⟨false, true, acc⟩ l = ⟨false, true, acc⟩) ∧
    (pyFind l "*/" = none →
      cleanLine ⟨false, true, acc⟩ l = ⟨false, true, acc⟩) ∧
    clean_text "a /*\nbody\nc */ keep\nx" = "a\nkeep\nx" := by
  refine ⟨?_, ?_, ?_, by decide⟩
  · intro hf he
    by_cases hl : l = ""
    · subst hl
      rw [show pyFind "" "*/" = none from rfl] at hf
      exact Option.noConfusion hf
    · unfold cleanLine
      simp only [h1, Bool.false_eq_true, if_false, ne_eq, hl, not_false_eq_true,
        if_true]
      rw [pyFind_snoc_nl_open, h2]
      rw [pyFind_snoc_nl_close, hf]
      simp only [he, if_true]
  · intro hf
    by_cases hl : l = ""
    · subst hl
      rw [show pyFind "" "*/" = none from rfl] at hf
      exact Option.noConfusion hf
    · unfold cleanLine
      simp only [h1, Bool.false_eq_true, if_false, ne_eq, hl, not_false_eq_true,
        if_true]
      rw [pyFind_snoc_nl_open, h2]
      rw [pyFind_snoc_nl_close, hf]
      simp
  · intro hf
    by_cases hl : l = ""
    · subst hl
      rfl
    · unfold cleanLine
      simp only [h1, Bool.false_eq_true, if_false, ne_eq, hl, not_false_eq_true,
        if_true]
      rw [pyFind_snoc_nl_open, h2]
      rw [pyFind_snoc_nl_close, hf]

theorem clean_text_plain_witness :
    (∀ l ∈ pyLines "a\nb c", pyFind l "/*" = none ∧ pyEndsWith l "\\" = false) ∧
    clean_text "a\nb c" = pyRStrip (plainJoin (pyLines "a\nb c")) :=
  ⟨by decide, clean_text_plain "a\nb c" (by decide)⟩

theorem clean_text_block_close_step_witness :
    pyEndsWith "c */ keep" "\\" = false ∧ pyFind "c */ keep" "/*" = none ∧
    ((pyFind "c */ keep" "*/" = some 2 → 0 < 2 →
      cleanLine ⟨false, true, "A\n"⟩ "c */ keep" =
        ⟨false, false, "A\n" ++ pyLStrip (strDrop ("c */ keep" ++ "\n") (2 + 2))⟩) ∧
    (pyFind "c */ keep" "*/" = some 0 →
      cleanLine ⟨false, true, "A\n"⟩ "c */ keep" = ⟨false, true, "A\n"⟩) ∧
    (pyFind "c */ keep" "*/" = none →
      cleanLine ⟨false, true, "A\n"⟩ "c */ keep" = ⟨false, true, "A\n"⟩) ∧
    clean_text "a /*\nbody\nc */ keep\nx" = "a\nkeep\nx") :=
  ⟨by decide, by decide,
    clean_text_block_close_step "A\n" "c */ keep" 2 (by decide) (by decide)⟩
